import Mathlib

/-!
Verification of the `hexo-translate-llm` plugin core
(`src/index.js`, `src/lib/translator.js`, `src/lib/concurrency.js`,
`src/lib/storage.js`), as a shallow embedding over `List Char`.

Strings are modelled as `List Char` (a JS string is a sequence of code
units; all the code under study manipulates it only through
concatenation, search and slicing, which translate directly).
Recursive scanners are written with an explicit fuel argument (always
instantiated with the length of the scanned list) so that every
definition is a structural recursion and evaluates by `decide` / `rfl`.
-/

namespace HexoLLM

/-- Decimal digit character, as produced by JS string interpolation of a
number (`String(n)` / template literals). -/
def digitChar (d : Nat) : Char :=
  match d with
  | 0 => '0' | 1 => '1' | 2 => '2' | 3 => '3' | 4 => '4'
  | 5 => '5' | 6 => '6' | 7 => '7' | 8 => '8' | 9 => '9'
  | _ => ' '

/-- Numeric value of a decimal digit character (used only to prove that
decimal rendering is injective). -/
def digitVal (c : Char) : Nat :=
  match c with
  | '0' => 0 | '1' => 1 | '2' => 2 | '3' => 3 | '4' => 4
  | '5' => 5 | '6' => 6 | '7' => 7 | '8' => 8 | '9' => 9
  | _ => 0

def isDigitCh (c : Char) : Bool := '0' ≤ c && c ≤ '9'

/-- Fuelled decimal rendering of a natural number. -/
def natCharsGo : Nat → Nat → List Char
  | 0, n => [digitChar (n % 10)]
  | fuel + 1, n =>
    if n < 10 then [digitChar n]
    else natCharsGo fuel (n / 10) ++ [digitChar (n % 10)]

/-- Decimal rendering of a natural number, exactly as JS `String(n)`
renders a non-negative integer. -/
def natChars (n : Nat) : List Char := natCharsGo n n

theorem natCharsGo_fuel_irrel :
    ∀ f g n, n ≤ f → n ≤ g → natCharsGo f n = natCharsGo g n := by
  intro f
  induction f with
  | zero =>
    intro g n hf _
    interval_cases n
    cases g with
    | zero => rfl
    | succ g => simp [natCharsGo]
  | succ f ih =>
    intro g n hf hg
    cases g with
    | zero =>
      interval_cases n
      simp [natCharsGo]
    | succ g =>
      simp only [natCharsGo]
      by_cases h : n < 10
      · simp [h]
      · simp only [h, if_false]
        have hd : n / 10 ≤ f := by omega
        have hd' : n / 10 ≤ g := by
          have := Nat.div_le_self n 10
          omega
        rw [ih g (n / 10) hd hd']

theorem natChars_unfold (n : Nat) :
    natChars n = if n < 10 then [digitChar n]
                 else natChars (n / 10) ++ [digitChar (n % 10)] := by
  by_cases h : n < 10
  · cases n with
    | zero => simp [natChars, natCharsGo, h]
    | succ m => simp [natChars, natCharsGo, h]
  · have hn : 1 ≤ n := by omega
    obtain ⟨m, rfl⟩ : ∃ m, n = m + 1 := ⟨n - 1, by omega⟩
    simp only [natChars, natCharsGo, h, if_false]
    congr 1
    exact natCharsGo_fuel_irrel m ((m + 1) / 10) ((m + 1) / 10)
      (by omega) (le_refl _)

theorem digitVal_digitChar (d : Nat) (h : d < 10) :
    digitVal (digitChar d) = d := by
  interval_cases d <;> rfl

theorem isDigitCh_digitChar (d : Nat) (h : d < 10) :
    isDigitCh (digitChar d) = true := by
  interval_cases d <;> rfl

/-- Parse a digit string back to a number; inverse of `natChars`. -/
def parseNat (l : List Char) : Nat := l.foldl (fun a c => 10 * a + digitVal c) 0

theorem parseNat_append_digit (l : List Char) (c : Char) :
    parseNat (l ++ [c]) = 10 * parseNat l + digitVal c := by
  simp [parseNat, List.foldl_append]

theorem parseNat_natChars (n : Nat) : parseNat (natChars n) = n := by
  induction n using Nat.strong_induction_on with
  | _ n ih =>
    rw [natChars_unfold]
    by_cases h : n < 10
    · simp [h, parseNat, digitVal_digitChar n h]
    · simp only [h, if_false]
      rw [parseNat_append_digit, ih (n / 10) (by omega),
        digitVal_digitChar _ (Nat.mod_lt _ (by omega))]
      omega

theorem natChars_inj {a b : Nat} (h : natChars a = natChars b) : a = b := by
  have := parseNat_natChars a
  rw [h, parseNat_natChars] at this
  omega

theorem mem_natChars_isDigit :
    ∀ f n c, c ∈ natCharsGo f n → isDigitCh c = true := by
  intro f
  induction f with
  | zero =>
    intro n c hc
    simp only [natCharsGo, List.mem_singleton] at hc
    subst hc
    exact isDigitCh_digitChar _ (Nat.mod_lt _ (by omega))
  | succ f ih =>
    intro n c hc
    simp only [natCharsGo] at hc
    by_cases h : n < 10
    · simp only [h, if_true, List.mem_singleton] at hc
      subst hc
      exact isDigitCh_digitChar _ h
    · simp only [h, if_false, List.mem_append, List.mem_singleton] at hc
      rcases hc with hc | hc
      · exact ih _ _ hc
      · subst hc
        exact isDigitCh_digitChar _ (Nat.mod_lt _ (by omega))

theorem mem_natChars_isDigit' {n : Nat} {c : Char} (h : c ∈ natChars n) :
    isDigitCh c = true := mem_natChars_isDigit n n c h

theorem natChars_ne_nil (n : Nat) : natChars n ≠ [] := by
  rw [natChars_unfold]
  by_cases h : n < 10 <;> simp [h]

/-! ### Code-block placeholders

`extractCodeBlocks` replaces each fenced block with the string
`[CODE_BLOCK_<index>]` (template literal in `translator.js`, line 32). -/

/-- The common stem of every placeholder token. -/
def mark : List Char := "[CODE_BLOCK_".toList

/-- The placeholder for code block number `k`. -/
def ph (k : Nat) : List Char := mark ++ natChars k ++ [']']

/-- `[ph k, ph (k+1), …, ph (k+n-1)]`. -/
def phList : Nat → Nat → List (List Char)
  | _, 0 => []
  | k, n + 1 => ph k :: phList (k + 1) n

/-- `interleave [t₀, t₁, …, tₙ] [x₀, …, xₙ₋₁] = t₀ ++ x₀ ++ t₁ ++ … ++ tₙ`:
plain-text segments interleaved with code blocks (or placeholders). -/
def interleave : List (List Char) → List (List Char) → List Char
  | [], _ => []
  | t :: _, [] => t
  | t :: ts, x :: xs => t ++ x ++ interleave ts xs

theorem interleave_cons_append (x y : List Char) (ts xs : List (List Char)) :
    interleave ((x ++ y) :: ts) xs = x ++ interleave (y :: ts) xs := by
  cases xs with
  | nil => rfl
  | cons p ps => simp [interleave]

theorem phList_length : ∀ n k, (phList k n).length = n
  | 0, _ => rfl
  | n + 1, k => by simp [phList, phList_length n (k + 1)]

/-- No nonempty proper suffix of the marker is a prefix of the marker
(the marker has no self-overlap). -/
theorem mark_no_self_overlap :
    ∀ n, n < mark.length → 1 ≤ n → mark.drop n ≠ mark.take (mark.length - n) := by
  decide

theorem mark_length : mark.length = 12 := by decide

/-- Characters of a placeholder after its first one are never `'['`. -/
theorem ph_tail_no_lbracket {k : Nat} {c : Char} (h : c ∈ (ph k).tail) :
    c ≠ '[' := by
  have : (ph k).tail = "CODE_BLOCK_".toList ++ natChars k ++ [']'] := by
    simp [ph, mark]
  rw [this] at h
  simp only [List.mem_append, List.mem_singleton] at h
  intro hc
  subst hc
  rcases h with (h | h) | h
  · exact absurd h (by decide)
  · have := mem_natChars_isDigit' h
    simp [isDigitCh] at this
  · exact absurd h (by decide)

theorem mark_isPrefix_ph (k : Nat) : mark <+: ph k := ⟨natChars k ++ [']'], by simp [ph]⟩

/-- If list `a` does not contain the marker as an infix, then no
occurrence of the marker can start strictly inside `a` in `a ++ mark ++ r`
(the marker cannot straddle the boundary because it has no self-overlap). -/
theorem mark_no_straddle {a : List Char} (r : List Char) (ha : ¬ mark <:+: a)
    {i : Nat} (hi : i < a.length) : ¬ mark <+: (a.drop i ++ (mark ++ r)) := by
  intro hpre
  set x := a.drop i with hx
  have hxlen : x.length = a.length - i := by simp [hx]
  have hxpos : 1 ≤ x.length := by omega
  by_cases hlong : mark.length ≤ x.length
  · -- the occurrence fits inside `a`
    have : mark <+: x := (List.isPrefix_append_of_length hlong).mp hpre
    exact ha (this.isInfix.trans (List.drop_suffix i a).isInfix)
  · -- the occurrence straddles: forces a self-overlap of the marker
    push_neg at hlong
    have htake : mark = (x ++ (mark ++ r)).take mark.length := by
      exact List.prefix_iff_eq_take.mp hpre
    rw [List.take_append_eq_append_take] at htake
    have hxall : x.take mark.length = x := List.take_of_length_le (by omega)
    rw [hxall] at htake
    have htk : (mark ++ r).take (mark.length - x.length) =
        mark.take (mark.length - x.length) := by
      rw [List.take_append_eq_append_take]
      have : mark.length - x.length - mark.length = 0 := by omega
      simp [this]
    rw [htk] at htake
    have hdrop : mark.drop x.length = mark.take (mark.length - x.length) := by
      have := congrArg (List.drop x.length) htake
      rwa [List.drop_left] at this
    exact mark_no_self_overlap x.length (by omega) hxpos hdrop

/-- Occurrence positions: a list is an infix iff it is a prefix of some
tail. -/
theorem isInfix_iff_drop {α : Type} {p l : List α} :
    p <:+: l ↔ ∃ i, p <+: l.drop i := by
  constructor
  · rintro ⟨u, v, rfl⟩
    refine ⟨u.length, v, ?_⟩
    rw [List.append_assoc, List.drop_left]
  · rintro ⟨i, w, hw⟩
    exact ⟨l.take i, w, by rw [List.append_assoc, hw, List.take_append_drop]⟩

theorem infix_of_append_left {α : Type} {p x : List α} (l : List α)
    (h : p <:+: x) : p <:+: l ++ x := by
  rcases h with ⟨u, v, rfl⟩
  exact ⟨l ++ u, v, by simp⟩

theorem infix_of_append_right {α : Type} {p x : List α} (l : List α)
    (h : p <:+: x) : p <:+: x ++ l := by
  rcases h with ⟨u, v, rfl⟩
  exact ⟨u, v ++ l, by simp⟩

theorem drop_append_ge {α : Type} {l₁ l₂ : List α} {i : Nat}
    (h : l₁.length ≤ i) : (l₁ ++ l₂).drop i = l₂.drop (i - l₁.length) := by
  rw [List.drop_append_eq_append_drop, List.drop_eq_nil_of_le h, List.nil_append]

/-! ### `replaceAll`: the JS idiom `result.split(placeholder).join(code)`

`split` cuts the string at every non-overlapping leftmost occurrence of
the (nonempty) pattern and `join` glues the parts back with the
replacement, i.e. every occurrence is replaced, scanning left to right,
and replacement text is never rescanned. -/

def replGo (pat rep : List Char) : Nat → List Char → List Char
  | 0, s => s
  | fuel + 1, s =>
    if pat ≠ [] ∧ pat.isPrefixOf s then
      rep ++ replGo pat rep fuel (s.drop pat.length)
    else
      match s with
      | [] => []
      | c :: t => c :: replGo pat rep fuel t

/-- `replaceAll pat rep s` = `s.split(pat).join(rep)` for nonempty `pat`
(the only way `restoreCodeBlocks` ever calls it). -/
def replaceAll (pat rep s : List Char) : List Char := replGo pat rep s.length s

theorem replGo_nil (pat rep : List Char) (f : Nat) : replGo pat rep f [] = [] := by
  cases f with
  | zero => rfl
  | succ f =>
    have : ¬ (pat ≠ [] ∧ pat.isPrefixOf ([] : List Char)) := by
      rintro ⟨h1, h2⟩
      cases pat with
      | nil => exact h1 rfl
      | cons c p => simp [List.isPrefixOf] at h2
    simp [replGo, this]

theorem replGo_fuel_irrel (pat rep : List Char) :
    ∀ f g s, s.length ≤ f → s.length ≤ g → replGo pat rep f s = replGo pat rep g s := by
  intro f
  induction f with
  | zero =>
    intro g s hf _
    have : s = [] := List.eq_nil_of_length_eq_zero (by omega)
    subst this
    rw [replGo_nil, replGo_nil]
  | succ f ih =>
    intro g s hf hg
    cases g with
    | zero =>
      have : s = [] := List.eq_nil_of_length_eq_zero (by omega)
      subst this
      rw [replGo_nil, replGo_nil]
    | succ g =>
      simp only [replGo]
      by_cases h : pat ≠ [] ∧ pat.isPrefixOf s
      · have hple : 1 ≤ pat.length := by
          rcases h with ⟨h1, _⟩
          cases pat with
          | nil => exact absurd rfl h1
          | cons c p => simp
        have hs : (s.drop pat.length).length ≤ f := by
          simp only [List.length_drop]; omega
        have hs' : (s.drop pat.length).length ≤ g := by
          simp only [List.length_drop]; omega
        rw [if_pos h, if_pos h, ih g _ hs hs']
      · rw [if_neg h, if_neg h]
        cases s with
        | nil => rfl
        | cons c t =>
          have ht : t.length ≤ f := by simp at hf; omega
          have ht' : t.length ≤ g := by simp at hg; omega
          simp [ih g t ht ht']

theorem replaceAll_unfold (pat rep s : List Char) :
    replaceAll pat rep s =
      if pat ≠ [] ∧ pat.isPrefixOf s then
        rep ++ replaceAll pat rep (s.drop pat.length)
      else
        match s with
        | [] => []
        | c :: t => c :: replaceAll pat rep t := by
  cases s with
  | nil =>
    have : ¬ (pat ≠ [] ∧ pat.isPrefixOf ([] : List Char)) := by
      rintro ⟨h1, h2⟩
      cases pat with
      | nil => exact h1 rfl
      | cons c p => simp [List.isPrefixOf] at h2
    simp [replaceAll, replGo_nil, this]
  | cons c t =>
    show replGo pat rep (t.length + 1) (c :: t) = _
    simp only [replGo]
    by_cases h : pat ≠ [] ∧ pat.isPrefixOf (c :: t)
    · rw [if_pos h, if_pos h]
      congr 1
      have hple : 1 ≤ pat.length := by
        rcases h with ⟨h1, _⟩
        cases pat with
        | nil => exact absurd rfl h1
        | cons x p => simp
      show replGo pat rep t.length _ = replGo pat rep _ _
      exact replGo_fuel_irrel pat rep t.length ((c :: t).drop pat.length).length
        ((c :: t).drop pat.length) (by simp; omega) (le_refl _)
    · rw [if_neg h, if_neg h]
      rfl

/-- A string containing no occurrence of the pattern is unchanged. -/
theorem replaceAll_no_occurrence {pat s : List Char} (rep : List Char)
    (h : ¬ pat <:+: s) : replaceAll pat rep s = s := by
  induction s with
  | nil => rfl
  | cons c t ih =>
    rw [replaceAll_unfold]
    have hnp : ¬ (pat ≠ [] ∧ pat.isPrefixOf (c :: t)) := by
      rintro ⟨_, h2⟩
      exact h (List.isPrefixOf_iff_prefix.mp h2).isInfix
    simp only [hnp, if_false]
    have ht : ¬ pat <:+: t := fun hyp => h (infix_of_append_left [c] hyp)
    rw [ih ht]

/-- Leftmost-occurrence splitting: if no occurrence of the pattern starts
inside `a`, replacement rewrites `a ++ pat ++ r` to
`a ++ rep ++ replaceAll pat rep r`. -/
theorem replaceAll_split {pat : List Char} (rep : List Char) (hp : pat ≠ []) :
    ∀ a r, (∀ i < a.length, ¬ pat <+: (a ++ (pat ++ r)).drop i) →
      replaceAll pat rep (a ++ (pat ++ r)) = a ++ rep ++ replaceAll pat rep r := by
  intro a
  induction a with
  | nil =>
    intro r _
    rw [List.nil_append, replaceAll_unfold]
    have hcond : pat ≠ [] ∧ pat.isPrefixOf (pat ++ r) :=
      ⟨hp, List.isPrefixOf_iff_prefix.mpr ⟨r, rfl⟩⟩
    rw [if_pos hcond, List.drop_left, List.nil_append]
  | cons c a' ih =>
    intro r h
    have hnp : ¬ (pat ≠ [] ∧ pat.isPrefixOf (c :: (a' ++ (pat ++ r)))) := by
      rintro ⟨_, h2⟩
      exact h 0 (by simp) (by simpa using List.isPrefixOf_iff_prefix.mp h2)
    have h' : ∀ i < a'.length, ¬ pat <+: (a' ++ (pat ++ r)).drop i := by
      intro i hi hpre
      exact h (i + 1) (by simp; omega) (by simpa using hpre)
    calc replaceAll pat rep (c :: a' ++ (pat ++ r))
        = replaceAll pat rep (c :: (a' ++ (pat ++ r))) := by
          simp only [List.cons_append]
      _ = c :: replaceAll pat rep (a' ++ (pat ++ r)) := by
          rw [replaceAll_unfold, if_neg hnp]
      _ = c :: (a' ++ rep ++ replaceAll pat rep r) := by rw [ih r h']
      _ = c :: a' ++ rep ++ replaceAll pat rep r := by
          simp only [List.cons_append, List.append_assoc]

/-! ### Placeholders do not collide with each other -/

theorem digits_bracket_prefix_eq :
    ∀ (a b r : List Char), (∀ c ∈ a, isDigitCh c = true) →
      (∀ c ∈ b, isDigitCh c = true) →
      a ++ [']'] <+: (b ++ [']']) ++ r → a = b := by
  intro a
  induction a with
  | nil =>
    intro b r _ hb h
    cases b with
    | nil => rfl
    | cons x b' =>
      have hx' : (']' : Char) = x := by
        have h2 : [']'] <+: x :: ((b' ++ [']']) ++ r) := by simpa using h
        simpa using h2
      have hx := hb x (by simp)
      rw [← hx'] at hx
      simp [isDigitCh] at hx
  | cons y a' ih =>
    intro b r ha hb h
    cases b with
    | nil =>
      have hy' : y = ']' := by
        have h2 : y :: (a' ++ [']']) <+: ']' :: r := by simpa using h
        exact (List.cons_prefix_cons.mp h2).1
      have hy := ha y (by simp)
      rw [hy'] at hy
      simp [isDigitCh] at hy
    | cons x b' =>
      have h2 : y :: (a' ++ [']']) <+: x :: ((b' ++ [']']) ++ r) := by simpa using h
      have h' := List.cons_prefix_cons.mp h2
      have : a' = b' :=
        ih b' r (fun c hc => ha c (by simp [hc]))
          (fun c hc => hb c (by simp [hc])) h'.2
      rw [h'.1, this]

theorem ph_prefix_ph_append {j k : Nat} {rest : List Char}
    (h : ph j <+: ph k ++ rest) : j = k := by
  have h' : mark ++ (natChars j ++ [']']) <+: mark ++ ((natChars k ++ [']']) ++ rest) := by
    simpa [ph, List.append_assoc] using h
  have := (List.prefix_append_right_inj mark).mp h'
  exact natChars_inj (digits_bracket_prefix_eq (natChars j) (natChars k) rest
    (fun c hc => mem_natChars_isDigit' hc) (fun c hc => mem_natChars_isDigit' hc) this)

theorem ph_ne_nil (k : Nat) : ph k ≠ [] := by
  simp [ph, mark]

theorem ph_length_pos (k : Nat) : 1 ≤ (ph k).length := by
  cases hp : ph k with
  | nil => exact absurd hp (ph_ne_nil k)
  | cons c t => simp

/-- Occurrence classification: in a text interleaving marker-free
segments with the placeholders `ph k, ph (k+1), …`, no placeholder
`ph j` with `j < k` occurs anywhere. -/
theorem ph_not_infix_interleave :
    ∀ n ts k j, ts.length = n + 1 → (∀ t ∈ ts, ¬ mark <:+: t) → j < k →
      ¬ ph j <:+: interleave ts (phList k n) := by
  intro n
  induction n with
  | zero =>
    intro ts k j hlen hts _ hinf
    obtain ⟨t, rfl⟩ : ∃ t, ts = [t] := by
      cases ts with
      | nil => simp at hlen
      | cons t ts' =>
        cases ts' with
        | nil => exact ⟨t, rfl⟩
        | cons u us => simp at hlen
    exact hts t (by simp)
      (((mark_isPrefix_ph j).isInfix.trans hinf).trans (by simp [phList, interleave]))
  | succ n ih =>
    intro ts k j hlen hts hjk hinf
    obtain ⟨t₀, ts', rfl⟩ : ∃ t₀ ts', ts = t₀ :: ts' := by
      cases ts with
      | nil => simp at hlen
      | cons t₀ ts' => exact ⟨t₀, ts', rfl⟩
    have hlen' : ts'.length = n + 1 := by simpa using hlen
    simp only [phList, interleave] at hinf
    set S' := interleave ts' (phList (k + 1) n) with hS'
    rw [isInfix_iff_drop] at hinf
    obtain ⟨i, hpre⟩ := hinf
    have ht₀free : ¬ mark <:+: t₀ := hts t₀ (by simp)
    by_cases hi : i < t₀.length
    · -- an occurrence cannot start inside the marker-free segment t₀
      have hdrop : (t₀ ++ ph k ++ S').drop i = t₀.drop i ++ (mark ++ (natChars k ++ [']'] ++ S')) := by
        rw [List.append_assoc, List.drop_append_of_le_length (le_of_lt hi)]
        simp [ph, List.append_assoc]
      rw [hdrop] at hpre
      exact mark_no_straddle _ ht₀free hi ((mark_isPrefix_ph j).trans hpre)
    · push_neg at hi
      set d := i - t₀.length with hd
      have hdrop : (t₀ ++ ph k ++ S').drop i = (ph k ++ S').drop d := by
        rw [List.append_assoc, drop_append_ge hi]
      rw [hdrop] at hpre
      by_cases hd0 : d = 0
      · -- occurrence exactly at the placeholder `ph k`: forces j = k
        rw [hd0, List.drop_zero] at hpre
        exact absurd (ph_prefix_ph_append hpre) (by omega)
      · by_cases hdlt : d < (ph k).length
        · -- occurrence starting strictly inside `ph k`: impossible, the
          -- first character of a placeholder is the only '['
          have hne : (ph k).drop d ≠ [] := by
            intro hnil
            have := congrArg List.length hnil
            simp at this
            omega
          obtain ⟨c, t', hct⟩ := List.exists_cons_of_ne_nil hne
          have hcmem : c ∈ (ph k).tail := by
            have h1 : c ∈ (ph k).drop d := by rw [hct]; simp
            have h2 : (ph k).drop d = ((ph k).tail).drop (d - 1) := by
              rw [← List.drop_one, List.drop_drop]
              congr 1
              omega
            rw [h2] at h1
            exact List.drop_subset _ _ h1
          have hpre' : mark <+: (ph k).drop d ++ S' :=
            (mark_isPrefix_ph j).trans
              (by rwa [List.drop_append_of_le_length (le_of_lt hdlt)] at hpre)
          rw [hct] at hpre'
          obtain ⟨w, hw⟩ := hpre'
          have hmark : mark = '[' :: "CODE_BLOCK_".toList := by decide
          rw [hmark] at hw
          simp only [List.cons_append] at hw
          have : c = '[' := (List.cons.injEq _ _ _ _ |>.mp hw.symm).1
          exact ph_tail_no_lbracket hcmem this
        · -- occurrence past `ph k`: it lies inside the rest, recurse
          push_neg at hdlt
          rw [drop_append_ge hdlt] at hpre
          exact ih ts' (k + 1) j hlen' (fun t ht => hts t (by simp [ht]))
            (by omega) (isInfix_iff_drop.mpr ⟨d - (ph k).length, hpre⟩)

/-! ### `restoreCodeBlocks` (translator.js lines 45-52)

```js
function restoreCodeBlocks(translatedContent, codeBlocks) {
    let result = translatedContent;
    codeBlocks.forEach((originalCode, index) => {
        const placeholder = `[CODE_BLOCK_${index}]`;
        result = result.split(placeholder).join(originalCode);
    });
    return result;
}
``` -/

def restGo : List (List Char) → Nat → List Char → List Char
  | [], _, t => t
  | b :: bs, k, t => restGo bs (k + 1) (replaceAll (ph k) b t)

/-- Shallow embedding of `restoreCodeBlocks`: for each index in order,
replace every occurrence of `[CODE_BLOCK_<index>]` in the running result
by the corresponding original code block. -/
def restoreCodeBlocks (translatedContent : List Char)
    (codeBlocks : List (List Char)) : List Char :=
  restGo codeBlocks 0 translatedContent

/-- Every segment of an interleaving is an infix of it. -/
theorem mem_interleave_isInfix :
    ∀ (xs ts : List (List Char)), ts.length = xs.length + 1 →
      ∀ t ∈ ts, t <:+: interleave ts xs := by
  intro xs
  induction xs with
  | nil =>
    intro ts hlen t ht
    obtain ⟨t₀, rfl⟩ : ∃ t₀, ts = [t₀] := by
      cases ts with
      | nil => simp at hlen
      | cons a as =>
        cases as with
        | nil => exact ⟨a, rfl⟩
        | cons b bs => simp at hlen
    simp at ht
    subst ht
    exact List.infix_refl t
  | cons x xs' ih =>
    intro ts hlen t ht
    obtain ⟨t₀, ts', rfl⟩ : ∃ t₀ ts', ts = t₀ :: ts' := by
      cases ts with
      | nil => simp at hlen
      | cons a as => exact ⟨a, as, rfl⟩
    simp only [interleave]
    rcases List.mem_cons.mp ht with rfl | ht'
    · exact ⟨[], x ++ interleave ts' xs', by simp⟩
    · have := ih ts' (by simpa using hlen) t ht'
      rw [List.append_assoc]
      exact infix_of_append_left t₀ (infix_of_append_left x this)

/-- The central correctness statement for `restoreCodeBlocks`: on a text
that interleaves segments with the placeholders `ph k, ph (k+1), …` (each
exactly once, in index order), restoring blocks `bs` yields the same
interleaving with the placeholders replaced by the blocks — provided the
fully restored text nowhere contains the marker `[CODE_BLOCK_`. -/
theorem restGo_interleave :
    ∀ (bs ts : List (List Char)) (k : Nat), ts.length = bs.length + 1 →
      ¬ mark <:+: interleave ts bs →
      restGo bs k (interleave ts (phList k bs.length)) = interleave ts bs := by
  intro bs
  induction bs with
  | nil =>
    intro ts k _ _
    rfl
  | cons b₀ bs' ih =>
    intro ts k hlen H
    obtain ⟨t₀, ts', rfl⟩ : ∃ t₀ ts', ts = t₀ :: ts' := by
      cases ts with
      | nil => simp at hlen
      | cons a as => exact ⟨a, as, rfl⟩
    obtain ⟨t₁, ts'', rfl⟩ : ∃ t₁ ts'', ts' = t₁ :: ts'' := by
      cases ts' with
      | nil => simp at hlen
      | cons a as => exact ⟨a, as, rfl⟩
    have hlen' : (t₁ :: ts'').length = bs'.length + 1 := by simpa using hlen
    set S' := interleave (t₁ :: ts'') (phList (k + 1) bs'.length) with hS'
    have Hfull : interleave (t₀ :: t₁ :: ts'') (b₀ :: bs') =
        t₀ ++ b₀ ++ interleave (t₁ :: ts'') bs' := by
      simp [interleave, List.append_assoc]
    -- segments are marker-free because the restored text is
    have hsegfree : ∀ t ∈ t₀ :: t₁ :: ts'', ¬ mark <:+: t := by
      intro t ht hmt
      exact H ((hmt.trans (mem_interleave_isInfix (b₀ :: bs') _ hlen t ht)))
    -- Step A: the first replacement rewrites exactly the one occurrence
    have stepA : replaceAll (ph k) b₀ (t₀ ++ (ph k ++ S')) = t₀ ++ b₀ ++ S' := by
      have hnostart : ∀ i < t₀.length, ¬ ph k <+: (t₀ ++ (ph k ++ S')).drop i := by
        intro i hi hpre
        have hdrop : (t₀ ++ (ph k ++ S')).drop i =
            t₀.drop i ++ (mark ++ (natChars k ++ [']'] ++ S')) := by
          rw [List.drop_append_of_le_length (le_of_lt hi)]
          simp [ph, List.append_assoc]
        rw [hdrop] at hpre
        exact mark_no_straddle _ (hsegfree t₀ (by simp)) hi
          ((mark_isPrefix_ph k).trans hpre)
      have hnorest : ¬ ph k <:+: S' :=
        ph_not_infix_interleave bs'.length (t₁ :: ts'') (k + 1) k hlen'
          (fun t ht => hsegfree t (by simp [ht])) (by omega)
      rw [replaceAll_split b₀ (ph_ne_nil k) t₀ S' hnostart,
        replaceAll_no_occurrence b₀ hnorest, List.append_assoc]
    -- Step B: fold the substituted prefix into the head segment
    have stepB : t₀ ++ b₀ ++ S' =
        interleave ((t₀ ++ b₀ ++ t₁) :: ts'') (phList (k + 1) bs'.length) := by
      rw [interleave_cons_append (t₀ ++ b₀) t₁ ts'']
    -- Step C: apply the induction hypothesis to the folded interleaving
    have hlen₂ : ((t₀ ++ b₀ ++ t₁) :: ts'').length = bs'.length + 1 := by
      simpa using hlen'
    have H₂ : ¬ mark <:+: interleave ((t₀ ++ b₀ ++ t₁) :: ts'') bs' := by
      rw [interleave_cons_append (t₀ ++ b₀) t₁ ts'']
      intro hm
      apply H
      rw [Hfull]
      simpa [List.append_assoc] using hm
    have stepC := ih ((t₀ ++ b₀ ++ t₁) :: ts'') (k + 1) hlen₂ H₂
    calc restGo (b₀ :: bs') k (interleave (t₀ :: t₁ :: ts'') (phList k (b₀ :: bs').length))
        = restGo bs' (k + 1)
            (replaceAll (ph k) b₀ (t₀ ++ (ph k ++ S'))) := by
          simp [restGo, phList, interleave, List.append_assoc, hS']
      _ = restGo bs' (k + 1)
            (interleave ((t₀ ++ b₀ ++ t₁) :: ts'') (phList (k + 1) bs'.length)) := by
          rw [stepA, stepB]
      _ = interleave ((t₀ ++ b₀ ++ t₁) :: ts'') bs' := stepC
      _ = interleave (t₀ :: t₁ :: ts'') (b₀ :: bs') := by
          rw [interleave_cons_append (t₀ ++ b₀) t₁ ts'', Hfull, List.append_assoc]

/-! ### `extractCodeBlocks` (translator.js lines 29-37)

```js
function extractCodeBlocks(content) {
    const codeBlocks = [];
    const contentWithPlaceholders = content.replace(/```[\s\S]*?```/g, (match) => {
        const placeholder = `[CODE_BLOCK_${codeBlocks.length}]`;
        codeBlocks.push(match);
        return placeholder;
    });
    return { contentWithPlaceholders, codeBlocks };
}
```

The regex is non-greedy: each match is a literal ` ``` `, then the
shortest run of arbitrary characters up to the next literal ` ``` `.
The scanner below walks the string left to right; at the first fence it
looks for the earliest closing fence (`findClose`); if none exists there
is no match anywhere in the remainder (the closing fence for any later
opening would itself close the earlier one), and scanning stops. -/

def fence : List Char := "```".toList

/-- Split a string at the earliest occurrence of a closing fence:
`findClose l = some (mid, rest)` iff `l = mid ++ fence ++ rest` with the
fence occurrence leftmost. -/
def findClose : List Char → Option (List Char × List Char)
  | [] => none
  | c :: t =>
    if fence.isPrefixOf (c :: t) then some ([], (c :: t).drop 3)
    else
      match findClose t with
      | none => none
      | some (m, r) => some (c :: m, r)

/-- A string with the fence as a prefix decomposes as the fence followed
by its tail beyond position 3. -/
theorem fence_decomp {l : List Char} (hp : fence.isPrefixOf l) :
    l = fence ++ l.drop 3 := by
  have hpre := List.isPrefixOf_iff_prefix.mp hp
  have htk : fence = l.take 3 := by
    have := List.prefix_iff_eq_take.mp hpre
    simpa using this
  calc l = l.take 3 ++ l.drop 3 := (List.take_append_drop 3 _).symm
    _ = fence ++ l.drop 3 := by rw [← htk]

theorem findClose_eq :
    ∀ l mid rest, findClose l = some (mid, rest) → l = mid ++ fence ++ rest := by
  intro l
  induction l with
  | nil => intro mid rest h; simp [findClose] at h
  | cons c t ih =>
    intro mid rest h
    by_cases hp : fence.isPrefixOf (c :: t)
    · simp only [findClose] at h
      rw [if_pos hp] at h
      injection h with hpair
      rw [Prod.mk.injEq] at hpair
      obtain ⟨rfl, rfl⟩ := hpair
      simpa using fence_decomp hp
    · simp only [findClose] at h
      rw [if_neg hp] at h
      cases hfc : findClose t with
      | none => rw [hfc] at h; exact absurd h (by simp)
      | some p =>
        obtain ⟨m, r⟩ := p
        rw [hfc] at h
        injection h with hpair
        rw [Prod.mk.injEq] at hpair
        obtain ⟨rfl, rfl⟩ := hpair
        have := ih m r hfc
        simp [this]

theorem findClose_length {l mid rest : List Char}
    (h : findClose l = some (mid, rest)) :
    l.length = mid.length + 3 + rest.length := by
  have := findClose_eq l mid rest h
  have hf : fence.length = 3 := by decide
  have : l.length = (mid ++ fence ++ rest).length := by rw [← this]
  simp [hf] at this
  omega

/-- Fuelled scanner for `extractCodeBlocks`; `k` is the number of blocks
collected so far (the JS callback reads `codeBlocks.length`). -/
def extGo : Nat → Nat → List Char → List Char × List (List Char)
  | 0, _, cs => (cs, [])
  | fuel + 1, k, cs =>
    match cs with
    | [] => ([], [])
    | c :: t =>
      if fence.isPrefixOf (c :: t) then
        match findClose ((c :: t).drop 3) with
        | some (mid, rest) =>
          (ph k ++ (extGo fuel (k + 1) rest).1,
            (fence ++ mid ++ fence) :: (extGo fuel (k + 1) rest).2)
        | none => (c :: t, [])
      else
        (c :: (extGo fuel k t).1, (extGo fuel k t).2)

/-- Result of `extractCodeBlocks`, with the source fields. -/
structure ExtractResult where
  contentWithPlaceholders : List Char
  codeBlocks : List (List Char)
  deriving DecidableEq

/-- Shallow embedding of `extractCodeBlocks`. -/
def extractCodeBlocks (content : List Char) : ExtractResult :=
  ⟨(extGo content.length 0 content).1, (extGo content.length 0 content).2⟩

theorem extGo_nil (fuel k : Nat) : extGo (fuel + 1) k [] = ([], []) := rfl

theorem extGo_fence_some {c : Char} {t mid rest : List Char}
    (hp : fence.isPrefixOf (c :: t)) (hfc : findClose ((c :: t).drop 3) = some (mid, rest))
    (fuel k : Nat) :
    extGo (fuel + 1) k (c :: t) =
      (ph k ++ (extGo fuel (k + 1) rest).1,
        (fence ++ mid ++ fence) :: (extGo fuel (k + 1) rest).2) := by
  simp only [extGo]
  rw [if_pos hp, hfc]

theorem extGo_fence_none {c : Char} {t : List Char}
    (hp : fence.isPrefixOf (c :: t)) (hfc : findClose ((c :: t).drop 3) = none)
    (fuel k : Nat) : extGo (fuel + 1) k (c :: t) = (c :: t, []) := by
  simp only [extGo]
  rw [if_pos hp, hfc]

theorem extGo_step {c : Char} {t : List Char}
    (hp : ¬ fence.isPrefixOf (c :: t)) (fuel k : Nat) :
    extGo (fuel + 1) k (c :: t) = (c :: (extGo fuel k t).1, (extGo fuel k t).2) := by
  simp only [extGo]
  rw [if_neg hp]

/-- Structure of the scanner output: the placeholder text interleaves the
untouched segments with `ph k, ph (k+1), …`, and the original input
interleaves the same segments with the collected blocks. -/
theorem extGo_structure :
    ∀ fuel k cs, cs.length ≤ fuel →
      ∃ ts : List (List Char),
        ts.length = (extGo fuel k cs).2.length + 1 ∧
        (extGo fuel k cs).1 = interleave ts (phList k (extGo fuel k cs).2.length) ∧
        cs = interleave ts (extGo fuel k cs).2 := by
  intro fuel
  induction fuel with
  | zero =>
    intro k cs hlen
    have : cs = [] := List.eq_nil_of_length_eq_zero (by omega)
    subst this
    exact ⟨[[]], rfl, rfl, rfl⟩
  | succ fuel ih =>
    intro k cs hlen
    cases cs with
    | nil =>
      exact ⟨[[]], by rw [extGo_nil]; rfl, by rw [extGo_nil]; rfl, by rw [extGo_nil]; rfl⟩
    | cons c t =>
      by_cases hp : fence.isPrefixOf (c :: t)
      · cases hfc : findClose ((c :: t).drop 3) with
        | none =>
          refine ⟨[c :: t], ?_, ?_, ?_⟩ <;> rw [extGo_fence_none hp hfc] <;> rfl
        | some p =>
          obtain ⟨mid, rest⟩ := p
          have hrest : rest.length ≤ fuel := by
            have h1 := findClose_length hfc
            have h2 : ((c :: t).drop 3).length = t.length - 2 := by simp
            simp only [List.length_cons] at hlen
            omega
          obtain ⟨ts', hlen', htxt', hsrc'⟩ := ih (k + 1) rest hrest
          refine ⟨[] :: ts', ?_, ?_, ?_⟩
          · rw [extGo_fence_some hp hfc]
            simpa using hlen'
          · rw [extGo_fence_some hp hfc]
            show ph k ++ (extGo fuel (k + 1) rest).1 =
              interleave ([] :: ts') (phList k ((extGo fuel (k + 1) rest).2.length + 1))
            rw [htxt']
            simp [phList, interleave]
          · rw [extGo_fence_some hp hfc]
            show c :: t =
              interleave ([] :: ts') ((fence ++ mid ++ fence) :: (extGo fuel (k + 1) rest).2)
            have hdrop : (c :: t).drop 3 = mid ++ fence ++ rest := findClose_eq _ _ _ hfc
            have hcs : c :: t = fence ++ (mid ++ fence ++ rest) := by
              rw [← hdrop]
              exact fence_decomp hp
            rw [hcs]
            conv_lhs => rw [hsrc']
            simp [interleave, List.append_assoc]
      · obtain ⟨ts', hlen', htxt', hsrc'⟩ := ih k t (by simp at hlen; omega)
        obtain ⟨u₀, us, rfl⟩ : ∃ u₀ us, ts' = u₀ :: us := by
          cases ts' with
          | nil => simp at hlen'
          | cons a as => exact ⟨a, as, rfl⟩
        refine ⟨(c :: u₀) :: us, ?_, ?_, ?_⟩
        · rw [extGo_step hp]
          simpa using hlen'
        · rw [extGo_step hp]
          show c :: (extGo fuel k t).1 =
            interleave ((c :: u₀) :: us) (phList k (extGo fuel k t).2.length)
          have hcu : (c :: u₀) = [c] ++ u₀ := rfl
          rw [hcu, interleave_cons_append [c] u₀ us, htxt']
          rfl
        · rw [extGo_step hp]
          show c :: t = interleave ((c :: u₀) :: us) (extGo fuel k t).2
          have hcu : (c :: u₀) = [c] ++ u₀ := rfl
          rw [hcu, interleave_cons_append [c] u₀ us, ← hsrc']
          rfl

/-- Round trip: restoring the unmodified placeholder text against the
extracted blocks reproduces the original body, provided the body nowhere
contains the marker `[CODE_BLOCK_`. -/
theorem restore_extract_roundtrip {body : List Char} (h : ¬ mark <:+: body) :
    restoreCodeBlocks (extractCodeBlocks body).contentWithPlaceholders
      (extractCodeBlocks body).codeBlocks = body := by
  obtain ⟨ts, hlen, htxt, hsrc⟩ := extGo_structure body.length 0 body (le_refl _)
  have H : ¬ mark <:+: interleave ts (extGo body.length 0 body).2 := by
    rw [← hsrc]
    exact h
  show restGo (extGo body.length 0 body).2 0 (extGo body.length 0 body).1 = body
  rw [htxt, restGo_interleave (extGo body.length 0 body).2 ts 0 hlen H]
  exact hsrc.symm

/-! ### `sanitizeHexoTags` (translator.js lines 81-83)

```js
function sanitizeHexoTags(content) {
    return content.replace(/\x7b%(?!\s*\/?\w[\w-]*)/g, '&#123;%');
}
```

Every occurrence of an opening template brace-percent that is *not*
followed by an optional whitespace run, an optional slash and a word
character is replaced by `&#123;%`.  (Since `[\w-]*` may be empty the
lookahead succeeds exactly when `\s*\/?\w` matches.) -/

/-- JS `\s` (whitespace) at the usual code points. -/
def isSpaceCh (c : Char) : Bool :=
  let n := c.toNat
  n = 9 || n = 10 || n = 11 || n = 12 || n = 13 || n = 32 || n = 160 ||
  n = 5760 || (8192 ≤ n && n ≤ 8202) || n = 8232 || n = 8233 || n = 8239 ||
  n = 8287 || n = 12288 || n = 65279

/-- JS `\w`: ASCII letters, digits and underscore. -/
def isWordCh (c : Char) : Bool :=
  ('a' ≤ c && c ≤ 'z') || ('A' ≤ c && c ≤ 'Z') || ('0' ≤ c && c ≤ '9') || c = '_'

/-- The two-character opener: a left brace followed by a percent sign. -/
def tagOpen : List Char := "\x7b%".toList

/-- The replacement emitted for a malformed opener. -/
def entity : List Char := "&#123;%".toList

/-- Core of the lookahead test, applied after dropping whitespace. -/
def goodLAcore : List Char → Bool
  | [] => false
  | c :: t =>
    if c = '/' then
      match t with
      | [] => false
      | d :: _ => isWordCh d
    else isWordCh c

/-- The lookahead `\s*\/?\w` of the sanitizer, as a predicate on the text
following an opener. -/
def goodLA (l : List Char) : Bool := goodLAcore (l.dropWhile isSpaceCh)

def sanGo : Nat → List Char → List Char
  | 0, s => s
  | fuel + 1, s =>
    match s with
    | [] => []
    | c :: t =>
      if tagOpen.isPrefixOf (c :: t) && !goodLA ((c :: t).drop 2) then
        entity ++ sanGo fuel ((c :: t).drop 2)
      else c :: sanGo fuel t

/-- Shallow embedding of `sanitizeHexoTags`. -/
def sanitizeHexoTags (content : List Char) : List Char := sanGo content.length content

def decidedBadCore : List Char → Bool
  | [] => false
  | c :: rest =>
    if c = '/' then
      match rest with
      | [] => false
      | d :: _ => !isWordCh d
    else !isWordCh c

/-- The lookahead fails *for every continuation* of `t`: after dropping
spaces within `t` the next character settles the matter negatively. -/
def decidedBadT (t : List Char) : Bool := decidedBadCore (t.dropWhile isSpaceCh)

theorem goodLA_append_of_decidedBad {t : List Char} (r : List Char)
    (h : decidedBadT t = true) : goodLA (t ++ r) = false := by
  unfold decidedBadT at h
  cases hdw : t.dropWhile isSpaceCh with
  | nil => rw [hdw] at h; simp [decidedBadCore] at h
  | cons c rest =>
    rw [hdw] at h
    have hne : t.dropWhile isSpaceCh ≠ [] := by rw [hdw]; simp
    have hdwapp : (t ++ r).dropWhile isSpaceCh = c :: (rest ++ r) := by
      rw [List.dropWhile_append]
      simp [hne, hdw]
    unfold goodLA
    rw [hdwapp]
    simp only [decidedBadCore] at h
    simp only [goodLAcore]
    by_cases hc : c = '/'
    · rw [if_pos hc] at h ⊢
      cases rest with
      | nil => simp at h
      | cons d rest' =>
        simp only [List.cons_append]
        simp only [Bool.not_eq_true'] at h
        simpa using h
    · rw [if_neg hc] at h ⊢
      simp only [Bool.not_eq_true'] at h
      exact h

theorem sanGo_length_ge :
    ∀ fuel s, s.length ≤ (sanGo fuel s).length := by
  intro fuel
  induction fuel with
  | zero => intro s; exact le_refl _
  | succ fuel ih =>
    intro s
    cases s with
    | nil => simp [sanGo]
    | cons c t =>
      simp only [sanGo]
      by_cases hc : tagOpen.isPrefixOf (c :: t) && !goodLA ((c :: t).drop 2)
      · rw [if_pos hc]
        have h1 := ih ((c :: t).drop 2)
        have h2 : entity.length = 7 := by decide
        simp only [List.length_append, List.length_cons, h2]
        simp only [List.length_drop, List.length_cons] at h1
        omega
      · rw [if_neg hc]
        have h1 := ih t
        simp only [List.length_cons]
        omega

/-- The left-brace character (code point 123). -/
def braceL : Char := Char.ofNat 123

theorem tagOpen_eq : tagOpen = braceL :: ['%'] := by decide

theorem sanGo_cons (fuel : Nat) (c : Char) (t : List Char) :
    sanGo (fuel + 1) (c :: t) =
      if tagOpen.isPrefixOf (c :: t) && !goodLA ((c :: t).drop 2) then
        entity ++ sanGo fuel ((c :: t).drop 2)
      else c :: sanGo fuel t := rfl

theorem isInfix_cons_of_isInfix {α : Type} {p x : List α} (c : α)
    (h : p <:+: x) : p <:+: c :: x := by
  rcases h with ⟨u, v, rfl⟩
  exact ⟨c :: u, v, rfl⟩

/-- A text containing an opener whose lookahead is decided bad produces
the escape entity somewhere in the sanitized output, which is then
strictly longer than the input. -/
theorem sanGo_bad_occurrence :
    ∀ fuel (a t : List Char), (a ++ tagOpen ++ t).length ≤ fuel →
      decidedBadT t = true →
      entity <:+: sanGo fuel (a ++ tagOpen ++ t) ∧
      (a ++ tagOpen ++ t).length < (sanGo fuel (a ++ tagOpen ++ t)).length := by
  intro fuel
  induction fuel with
  | zero =>
    intro a t hlen _
    exfalso
    have h2 : 2 ≤ (a ++ tagOpen ++ t).length := by
      have ht : tagOpen.length = 2 := by decide
      simp [ht]
      omega
    omega
  | succ fuel ih =>
    intro a t hlen hbad
    cases a with
    | nil =>
      have hs : ([] : List Char) ++ tagOpen ++ t = braceL :: '%' :: t := by
        simp [tagOpen_eq]
      rw [hs] at hlen ⊢
      have hpre : tagOpen.isPrefixOf (braceL :: '%' :: t) = true := by
        apply List.isPrefixOf_iff_prefix.mpr
        exact ⟨t, by simp [tagOpen_eq]⟩
      have hla : goodLA ((braceL :: '%' :: t).drop 2) = false := by
        show goodLA t = false
        have := goodLA_append_of_decidedBad [] hbad
        rwa [List.append_nil] at this
      have hcond : (tagOpen.isPrefixOf (braceL :: '%' :: t) &&
          !goodLA ((braceL :: '%' :: t).drop 2)) = true := by
        rw [hpre, hla]
        rfl
      rw [sanGo_cons, if_pos hcond]
      constructor
      · exact ⟨[], sanGo fuel ((braceL :: '%' :: t).drop 2), rfl⟩
      · have h1 := sanGo_length_ge fuel ((braceL :: '%' :: t).drop 2)
        have h2 : entity.length = 7 := by decide
        simp only [List.length_append, h2, List.length_drop, List.length_cons] at h1 ⊢
        omega
    | cons c a' =>
      have hs : (c :: a') ++ tagOpen ++ t = c :: (a' ++ tagOpen ++ t) := by
        simp
      rw [hs] at hlen ⊢
      rw [sanGo_cons]
      by_cases hcond : (tagOpen.isPrefixOf (c :: (a' ++ tagOpen ++ t)) &&
          !goodLA ((c :: (a' ++ tagOpen ++ t)).drop 2)) = true
      · rw [if_pos hcond]
        constructor
        · exact ⟨[], _, rfl⟩
        · have h1 := sanGo_length_ge fuel ((c :: (a' ++ tagOpen ++ t)).drop 2)
          have h2 : entity.length = 7 := by decide
          simp only [List.length_append, h2, List.length_drop, List.length_cons] at h1 ⊢
          omega
      · rw [if_neg hcond]
        have hlen' : (a' ++ tagOpen ++ t).length ≤ fuel := by
          simp only [List.length_cons] at hlen
          omega
        obtain ⟨hinf, hlt⟩ := ih a' t hlen' hbad
        constructor
        · exact isInfix_cons_of_isInfix c hinf
        · simp only [List.length_cons]
          omega

/-! ### `validateTranslatedContent` (translator.js lines 59-74)

Checks the translated text for (a) malformed HTML attributes, by the
regex `/<[a-zA-Z]+\s+[^>]*\s*[a-zA-Z]+">/`, and (b) balanced Hexo tag
pairs: for each of `note`, `tabs`, `codeblock` the number of matches of
`\x7b%\s*<tag>` must equal the number of matches of `\x7b%\s*end<tag>`.
A failure throws (here: returns `Except.error`). -/

def isLetterCh (c : Char) : Bool := ('a' ≤ c && c ≤ 'z') || ('A' ≤ c && c ≤ 'Z')

/-- Existential tail of the malformed-HTML regex after `<letters+ spaces+`:
some split `u ++ '"' :: '>' :: _` with `u` nonempty, free of `'>'` and
ending in a letter (`[^>]*\s*[a-zA-Z]+">`; the sets `\s` and `[a-zA-Z]`
are contained in `[^>]`, so only the final letter and the closing `">`
constrain the split). -/
def malformedTail (r : List Char) : Bool :=
  (List.range (r.length + 1)).any fun k =>
    let u := r.take k
    !u.isEmpty && u.all (fun c => c ≠ '>') &&
      (match u.getLast? with
       | some c => isLetterCh c
       | none => false) &&
      ("\">".toList).isPrefixOf (r.drop k)

/-- Does the malformed-HTML regex match starting at the head of `l`? -/
def malformedAt (l : List Char) : Bool :=
  match l with
  | '<' :: r =>
    let letters := r.takeWhile isLetterCh
    let r1 := r.drop letters.length
    let sp := r1.takeWhile isSpaceCh
    !letters.isEmpty && !sp.isEmpty && malformedTail (r1.drop sp.length)
  | _ => false

/-- Does the malformed-HTML regex match anywhere in `s`? -/
def malformedHtml (s : List Char) : Bool :=
  (List.range (s.length + 1)).any fun i => malformedAt (s.drop i)

/-- Length of the match of `\x7b%\s*<tag>` at the head of `l`, if any. -/
def tagMatchLen (l tag : List Char) : Option Nat :=
  if tagOpen.isPrefixOf l then
    let r := l.drop 2
    let sp := r.takeWhile isSpaceCh
    if tag.isPrefixOf (r.drop sp.length) then some (2 + sp.length + tag.length)
    else none
  else none

/-- Number of non-overlapping leftmost matches of `\x7b%\s*<tag>` in `l`
(the count `content.match(regex)` yields with the `g` flag). -/
def countGo (tag : List Char) : Nat → List Char → Nat
  | 0, _ => 0
  | fuel + 1, l =>
    match l with
    | [] => 0
    | c :: t =>
      match tagMatchLen (c :: t) tag with
      | some len => 1 + countGo tag fuel ((c :: t).drop len)
      | none => countGo tag fuel t

def countTag (content tag : List Char) : Nat := countGo tag content.length content

inductive ValErr where
  | malformedHtml : ValErr
  | tagMismatch (tag : List Char) (openCount closeCount : Nat) : ValErr
  deriving DecidableEq

def tagsToCheck : List (List Char) := ["note".toList, "tabs".toList, "codeblock".toList]

def checkTagsGo : List (List Char) → List Char → Except ValErr Unit
  | [], _ => Except.ok ()
  | tag :: rest, content =>
    let openCount := countTag content tag
    let closeCount := countTag content ("end".toList ++ tag)
    if openCount ≠ closeCount then Except.error (ValErr.tagMismatch tag openCount closeCount)
    else checkTagsGo rest content

/-- Shallow embedding of `validateTranslatedContent`; `Except.error`
models the thrown exception. -/
def validateTranslatedContent (content : List Char) : Except ValErr Unit :=
  if malformedHtml content then Except.error ValErr.malformedHtml
  else checkTagsGo tagsToCheck content

/-! ### Delimited-format parsing (`raw.match(/\[X_START\](.*?)\[X_END\]/s)`)

The regex (with the `s` flag) captures, at the first start marker that is
followed by an end marker, the shortest span up to the next end marker.
`splitFirst` cuts a string around the leftmost occurrence of a pattern. -/

def splitFirst (pat : List Char) : List Char → Option (List Char × List Char)
  | [] => if pat.isEmpty then some ([], []) else none
  | c :: t =>
    if pat.isPrefixOf (c :: t) then some ([], (c :: t).drop pat.length)
    else
      match splitFirst pat t with
      | some (a, b) => some (c :: a, b)
      | none => none

/-- Captured group of `/start(.*?)end/s` applied to `s`. -/
def findMarked (s st en : List Char) : Option (List Char) :=
  match splitFirst st s with
  | none => none
  | some (_, r) =>
    match splitFirst en r with
    | none => none
    | some (mid, _) => some mid

def titleStartTok : List Char := "[TITLE_START]".toList
def titleEndTok : List Char := "[TITLE_END]".toList
def contentStartTok : List Char := "[CONTENT_START]".toList
def contentEndTok : List Char := "[CONTENT_END]".toList

/-- `raw.match(/\[TITLE_START\](.*?)\[TITLE_END\]/s)?.[1] || title`:
the original title stands in when the markers are absent *or* the
captured group is empty (an empty string is falsy under `||`). -/
def pickTitle (raw title : List Char) : List Char :=
  match findMarked raw titleStartTok titleEndTok with
  | some t => if t = [] then title else t
  | none => title

/-! ### `translateContent` (translator.js lines 123-157), after transport

The transport part (`fetchWithRetry` of the endpoint) is abstracted into
the already-fetched response body `raw?`
(`result.choices?.[0]?.message?.content`, `none` when that chain is
nullish).  The function returns `Except.error` when
`validateTranslatedContent` throws, `Except.ok none` for the two
`return null` sites, and `Except.ok (some (title, content))` on
success. -/

def translateContent (raw? : Option (List Char)) (title content : List Char) :
    Except ValErr (Option (List Char × List Char)) :=
  match raw? with
  | none => Except.ok none
  | some raw =>
    let translatedTitle := pickTitle raw title
    let seg := (findMarked raw contentStartTok contentEndTok).getD []
    if seg = [] then Except.ok none
    else
      let restored := restoreCodeBlocks seg (extractCodeBlocks content).codeBlocks
      match validateTranslatedContent restored with
      | Except.error e => Except.error e
      | Except.ok _ => Except.ok (some (translatedTitle, sanitizeHexoTags restored))

/-! ### `wrapContent` (translator.js lines 93-110, inlined in index.js)

`JSON.stringify` of a string produces a double-quoted literal with the
standard JSON escapes. -/

def toHexDigit (n : Nat) : Char :=
  if n < 10 then digitChar n
  else match n with
    | 10 => 'a' | 11 => 'b' | 12 => 'c' | 13 => 'd' | 14 => 'e' | _ => 'f'

def uEscape (n : Nat) : List Char :=
  ['\\', 'u', toHexDigit (n / 4096 % 16), toHexDigit (n / 256 % 16),
    toHexDigit (n / 16 % 16), toHexDigit (n % 16)]

def jsEscapeChar (c : Char) : List Char :=
  if c = '"' then ['\\', '"']
  else if c = '\\' then ['\\', '\\']
  else if c.toNat = 8 then ['\\', 'b']
  else if c = '\t' then ['\\', 't']
  else if c = '\n' then ['\\', 'n']
  else if c.toNat = 12 then ['\\', 'f']
  else if c = '\r' then ['\\', 'r']
  else if c.toNat < 32 then uEscape c.toNat
  else [c]

def jsonStringify (s : List Char) : List Char :=
  '"' :: (s.map jsEscapeChar).flatten ++ ['"']

/-- Shallow embedding of `wrapContent`: the title script followed by the
two language containers, with the mandatory blank lines. -/
def wrapContent (originalContent translatedContent originalTitle translatedTitle :
    List Char) : List Char :=
  let titleScript :=
    "<script>\nwindow._zh_title = ".toList ++ jsonStringify originalTitle ++
    ";\nwindow._en_title = ".toList ++ jsonStringify translatedTitle ++
    ";\n</script>\n\n".toList
  titleScript ++ "\n<div class=\"hexo-llm-zh\">\n\n".toList ++ originalContent ++
    "\n\n</div>\n<div class=\"hexo-llm-en\">\n\n".toList ++ translatedContent ++
    "\n\n</div>".toList

/-! ### `fetchWithRetry` (index.js lines 47-66, concurrency.js lines 206-225)

```js
const fetchWithRetry = async (url, options, retries = 2) => {
    for (let i = 0; i <= retries; i++) {
        try { …fetch…; return await response.json(); }
        catch (err) {
            if (i === retries) throw err;
            …backoff, log…
        }
    }
};
```

One attempt — fetch, HTTP status check, JSON parse, or a timeout abort —
is abstracted as `attempt i : Except ε α` (all failure kinds collapse
into the thrown error).  The embedding additionally returns how many
attempts were made, so the retry budget is observable. -/

def fwrGo {ε α : Type} (attempt : Nat → Except ε α) : Nat → Nat → Except ε α × Nat
  | i, 0 => (attempt i, i + 1)
  | i, fuel + 1 =>
    match attempt i with
    | Except.ok v => (Except.ok v, i + 1)
    | Except.error _ => fwrGo attempt (i + 1) fuel

/-- Shallow embedding of `fetchWithRetry`: run attempts `0, 1, …` until
one succeeds or attempt number `retries` fails, whose error is rethrown.
Returns the result together with the number of attempts performed. -/
def fetchWithRetry {ε α : Type} (attempt : Nat → Except ε α) (retries : Nat) :
    Except ε α × Nat :=
  fwrGo attempt 0 retries

/-! ### The `before_post_render` filter (index.js lines 71-186)

The Hexo machinery (`storage.load` promise gate, logging) is abstracted:
the already-loaded cache is an association list argument, and the
transport is the `attempt` function handed to `fetchWithRetry` (the
filter always calls it with the default budget `retries = 2`).  The
outcome records the returned item, how many fetch attempts were
performed, which cache records were saved, which title pairs were pushed
onto `globalTitlePairs`, and the in-memory cache afterwards. -/

structure CacheRecord where
  hash : List Char
  model : List Char
  originalTitle : Option (List Char)
  translatedTitle : List Char
  wrappedContent : List Char
  deriving DecidableEq

structure HexoConfig where
  enable : Bool
  model : Option (List Char)
  endpoint : Option (List Char)
  max_concurrency : Option Nat
  single_timeout : Option Nat
  deriving DecidableEq

structure PostData where
  source : List Char
  title : List Char
  content : List Char
  layout : List Char
  no_translate : Bool
  deriving DecidableEq

structure FilterOutcome where
  data : PostData
  fetchAttempts : Nat
  writes : List (List Char × CacheRecord)
  titlePairs : List (List Char × List Char)
  cacheAfter : List (List Char × CacheRecord)
  deriving DecidableEq

def lookupSrc : List (List Char × CacheRecord) → List Char → Option CacheRecord
  | [], _ => none
  | (k, v) :: rest, key => if k = key then some v else lookupSrc rest key

def upsertSrc : List (List Char × CacheRecord) → List Char → CacheRecord →
    List (List Char × CacheRecord)
  | [], key, v => [(key, v)]
  | (k, w) :: rest, key, v =>
    if k = key then (key, v) :: rest else (k, w) :: upsertSrc rest key v

/-- `crypto.createHash('md5').update(data.content + (data.title || '') +
CACHE_VERSION).digest('hex')` — the digest is an arbitrary pure function
`md5` of the *unseparated concatenation* of body, title and the version
tag; every property proved here depends only on that functionality. -/
def contentHash (md5 : List Char → List Char) (content title : List Char) : List Char :=
  md5 (content ++ title ++ "v1".toList)

def defaultModel : List Char := "deepseek-ai/DeepSeek-V3.2".toList

/-- The translate path of the filter (the body run under `runWithLimit`,
index.js lines 109-185): fetch with the default retry budget 2, parse the
delimited format, sanitize, wrap, save and update the item; on any
thrown/parse failure return the item unchanged. -/
def translateStep (cache : List (List Char × CacheRecord))
    (attempt : Nat → Except Unit (Option (List Char))) (data : PostData)
    (hash model : List Char) : FilterOutcome :=
  match fetchWithRetry attempt 2 with
  | (Except.error _, n) => ⟨data, n, [], [], cache⟩
  | (Except.ok none, n) => ⟨data, n, [], [], cache⟩
  | (Except.ok (some raw), n) =>
    let translatedTitle := pickTitle raw data.title
    let seg := (findMarked raw contentStartTok contentEndTok).getD []
    if seg = [] then ⟨data, n, [], [], cache⟩
    else
      let sanitized := sanitizeHexoTags seg
      let wrapped := wrapContent data.content sanitized data.title translatedTitle
      let newRec : CacheRecord := ⟨hash, model, some data.title, translatedTitle, wrapped⟩
      ⟨{ data with title := translatedTitle, content := wrapped }, n,
        [(data.source, newRec)], [(data.title, translatedTitle)],
        upsertSrc cache data.source newRec⟩

/-- Shallow embedding of the `before_post_render` filter of index.js. -/
def beforePostRender (md5 : List Char → List Char) (config : HexoConfig)
    (apiKey : List Char) (cache : List (List Char × CacheRecord))
    (attempt : Nat → Except Unit (Option (List Char))) (data : PostData) :
    FilterOutcome :=
  if data.content = [] ∨ config.enable = false ∨ apiKey = [] ∨
      data.layout ≠ "post".toList ∨ data.no_translate = true then
    ⟨data, 0, [], [], cache⟩
  else
    let hash := contentHash md5 data.content data.title
    let model := config.model.getD defaultModel
    match lookupSrc cache data.source with
    | some cached =>
      if cached.hash = hash ∧ cached.model = model then
        -- cache hit (index.js 92-106): replace title/content from the
        -- record; backfill originalTitle in the in-memory record if absent
        let cached' := if cached.originalTitle = none then
            { cached with originalTitle := some data.title } else cached
        ⟨{ data with title := cached.translatedTitle, content := cached.wrappedContent },
          0, [], [(data.title, cached.translatedTitle)],
          upsertSrc cache data.source cached'⟩
      else translateStep cache attempt data hash model
    | none => translateStep cache attempt data hash model

/-! ### `Storage.save` (storage.js lines 93-117)

```js
async save(source, data) {
    this.cache[source] = data;
    try { fs.writeFileSync(…); } catch (e) { …log…; }
    if (this.isDbEnabled && !this.isClosed) {
        try { await this.pool.query(…upsert…); }
        catch (e) { if (!this.isClosed) { …log…; } }
    }
}
```

The two fallible effects are inputs (`Except`-valued results of the local
file write and the remote upsert); the `try`/`catch` blocks are the
`match`es on them.  The function's own result is an `Except`: a thrown
error *outside* the catches would surface as `Except.error`. -/

structure SaveEnv where
  isDbEnabled : Bool
  isClosed : Bool
  localWrite : Except (List Char) Unit
  remoteWrite : Except (List Char) Unit

def localSaveErrMsg (e : List Char) : List Char :=
  "[AI Translate] Local Save Error: ".toList ++ e

def dbSaveErrMsg (e : List Char) : List Char :=
  "[AI Translate] DB Save Error: ".toList ++ e

def storageSave (cache : List (List Char × CacheRecord)) (source : List Char)
    (data : CacheRecord) (env : SaveEnv) :
    Except (List Char) (List (List Char × CacheRecord) × List (List Char)) :=
  let cache' := upsertSrc cache source data
  let localLogs := match env.localWrite with
    | Except.ok _ => []
    | Except.error e => [localSaveErrMsg e]
  let remoteLogs :=
    if env.isDbEnabled = true ∧ env.isClosed = false then
      match env.remoteWrite with
      | Except.ok _ => []
      | Except.error e => if env.isClosed = false then [dbSaveErrMsg e] else []
    else []
  Except.ok (cache', localLogs ++ remoteLogs)

theorem lookupSrc_upsertSrc (cache : List (List Char × CacheRecord))
    (key : List Char) (v : CacheRecord) :
    lookupSrc (upsertSrc cache key v) key = some v := by
  induction cache with
  | nil => simp [upsertSrc, lookupSrc]
  | cons p rest ih =>
    obtain ⟨k, w⟩ := p
    by_cases hk : k = key
    · simp [upsertSrc, hk, lookupSrc]
    · simp [upsertSrc, hk, lookupSrc, ih]

/-! ### The concurrency limiter (concurrency.js 178-197, index.js 30-45)

```js
function createConcurrencyLimiter(limit = 2) {
    let activeCount = 0;
    const waitingQueue = [];
    return async (fn) => {
        if (activeCount >= limit) {
            await new Promise(resolve => waitingQueue.push(resolve));
        }
        activeCount++;
        try { return await fn(); }
        finally {
            activeCount--;
            if (waitingQueue.length > 0) { waitingQueue.shift()(); }
        }
    };
}
```

Cooperative single-threaded scheduler, modelled as a step relation on
microtask-level atomic segments.  Each caller runs three synchronous
segments separated by suspension points:

* `arrive`: the body up to the first `await` — test `activeCount ≥ limit`
  and either push a resolver onto `waitingQueue` (suspend), or
  `activeCount++` and start `fn`;
* `finish`: the `finally` block when `fn` settles — `activeCount--` and,
  if the queue is nonempty, shift the front resolver and call it, which
  only *schedules* the waiter's continuation (a microtask);
* `resume`: the woken waiter's continuation — `activeCount++` and start
  `fn`.  Woken waiters resume in wake order (microtask FIFO), but other
  ready segments (e.g. a new caller's `arrive`) may be interleaved
  between a `finish` and the corresponding `resume`, exactly as other
  pending microtasks run before the newly queued one. -/

inductive LimEvent where
  | arrive (id : Nat)
  | finish (id : Nat)
  | resume (id : Nat)
  deriving DecidableEq

structure LimState where
  activeCount : Nat
  waitingQueue : List Nat
  woken : List Nat
  running : List Nat
  pending : List Nat
  done : List Nat
  deriving DecidableEq

def limStep (limit : Nat) (s : LimState) : LimEvent → Option LimState
  | LimEvent.arrive id =>
    if id ∈ s.pending then
      if s.activeCount ≥ limit then
        some { s with pending := s.pending.erase id,
                      waitingQueue := s.waitingQueue ++ [id] }
      else
        some { s with pending := s.pending.erase id,
                      activeCount := s.activeCount + 1,
                      running := id :: s.running }
    else none
  | LimEvent.finish id =>
    if id ∈ s.running then
      match s.waitingQueue with
      | [] =>
        some { s with
          running := s.running.erase id,
          activeCount := s.activeCount - 1,
          done := id :: s.done }
      | q :: qs =>
        some { s with
          running := s.running.erase id,
          activeCount := s.activeCount - 1,
          done := id :: s.done,
          waitingQueue := qs,
          woken := s.woken ++ [q] }
    else none
  | LimEvent.resume id =>
    match s.woken with
    | q :: qs =>
      if q = id then
        some { s with woken := qs,
                      activeCount := s.activeCount + 1,
                      running := id :: s.running }
      else none
    | [] => none

def limRun (limit : Nat) : LimState → List LimEvent → Option LimState
  | s, [] => some s
  | s, e :: es =>
    match limStep limit s e with
    | some s' => limRun limit s' es
    | none => none

/-- Initial state for `n` callers, none yet arrived. -/
def limInit (n : Nat) : LimState := ⟨0, [], [], [], List.range n, []⟩

/-! ## Claims -/

/-- The schedule refuting the limiter bound: with `limit = 1`, caller 0
runs, caller 1 queues; caller 0 finishes (waking caller 1); caller 2
arrives *before* caller 1's continuation runs — it sees the decremented
`activeCount = 0` and admits itself; then caller 1 resumes and also
increments.  (Realizable in JS: the `arrive` of caller 2 is a microtask
that was already queued when the `finish` segment ran, so it executes
between the `finish` and the woken caller's continuation.) -/
def c1events : List LimEvent :=
  [LimEvent.arrive 0, LimEvent.arrive 1, LimEvent.finish 0,
   LimEvent.arrive 2, LimEvent.resume 1]

/-- C1: the claim (at most `limit` operations ever run concurrently, and
on completion the next queued caller is admitted before the freed slot
can be taken by a later arrival) is FALSE of the code: under the
reachable schedule `c1events` with `limit = 1`, the later-arriving
caller 2 is running while the FIFO-queued caller 1 has only been woken
(FIFO violation), and afterwards `activeCount = 2 > limit` with both
callers 1 and 2 executing concurrently (bound violation).  This
contradicts the function's own documentation ("Maximum concurrent
operations"), so the code, not the claim, is at fault. -/
theorem c1_limiter_bound_violated :
    ((limRun 1 (limInit 3) (c1events.take 4)).map
      (fun s => (s.running.contains 2, s.woken.contains 1))) = some (true, true) ∧
    ((limRun 1 (limInit 3) c1events).map
      (fun s => (s.activeCount, s.running))) = some (2, [1, 2]) := by
  constructor
  · decide
  · decide

/-- C3: if every attempt fails, `fetchWithRetry` performs exactly
`retries + 1` attempts and surfaces the error of the final attempt. -/
theorem c3_retry_exhaustion {ε α : Type} (attempt : Nat → Except ε α)
    (e : Nat → ε) (retries : Nat) (h : ∀ i, attempt i = Except.error (e i)) :
    fetchWithRetry attempt retries = (Except.error (e retries), retries + 1) := by
  have main : ∀ fuel i, fwrGo attempt i fuel =
      (Except.error (e (i + fuel)), i + fuel + 1) := by
    intro fuel
    induction fuel with
    | zero => intro i; simp [fwrGo, h i]
    | succ fuel ih =>
      intro i
      simp only [fwrGo, h i]
      have hidx : i + 1 + fuel = i + (fuel + 1) := by omega
      rw [ih (i + 1), hidx]
  have := main retries 0
  simpa [fetchWithRetry] using this

theorem c3_witness :
    fetchWithRetry (fun i => (Except.error i : Except Nat Unit)) 2 =
      (Except.error 2, 3) :=
  c3_retry_exhaustion (fun i => Except.error i) (fun i => i) 2 (fun _ => rfl)

/-- C6: `Storage.save` never throws on local or remote write failure —
it always returns normally, the in-memory map afterwards contains the
record under the key no matter which writes failed, and each failure is
only logged. -/
theorem c6_save_never_throws (cache : List (List Char × CacheRecord))
    (source : List Char) (data : CacheRecord) (env : SaveEnv) :
    ∃ cache' logs,
      storageSave cache source data env = Except.ok (cache', logs) ∧
      lookupSrc cache' source = some data ∧
      (∀ e, env.localWrite = Except.error e → localSaveErrMsg e ∈ logs) ∧
      (env.isDbEnabled = true → env.isClosed = false →
        ∀ e, env.remoteWrite = Except.error e → dbSaveErrMsg e ∈ logs) := by
  refine ⟨upsertSrc cache source data, _, rfl,
    lookupSrc_upsertSrc cache source data, ?_, ?_⟩
  · intro e he
    rw [he]
    simp
  · intro hdb hcl e he
    rw [he]
    have hcond : env.isDbEnabled = true ∧ env.isClosed = false := ⟨hdb, hcl⟩
    simp [hcond, hcl]

theorem c6_witness :
    ∃ cache' logs,
      storageSave [] ("a.md".toList)
          ⟨"h".toList, "m".toList, none, "T".toList, "W".toList⟩
          ⟨true, false, Except.error ("x".toList), Except.error ("y".toList)⟩ =
        Except.ok (cache', logs) ∧
      lookupSrc cache' ("a.md".toList) =
        some ⟨"h".toList, "m".toList, none, "T".toList, "W".toList⟩ ∧
      (∀ e, (Except.error ("x".toList) : Except (List Char) Unit) = Except.error e →
        localSaveErrMsg e ∈ logs) ∧
      (true = true → false = false →
        ∀ e, (Except.error ("y".toList) : Except (List Char) Unit) = Except.error e →
          dbSaveErrMsg e ∈ logs) :=
  c6_save_never_throws [] ("a.md".toList)
    ⟨"h".toList, "m".toList, none, "T".toList, "W".toList⟩
    ⟨true, false, Except.error ("x".toList), Except.error ("y".toList)⟩

/-- Modelled from the spec's words ("single occurrence replacement
semantics per index"): substitute, for each index in order, only the
*first* occurrence of the placeholder.  Used solely as the comparison
point showing the code implements different semantics. -/
def replaceFirst (pat rep s : List Char) : List Char :=
  match splitFirst pat s with
  | some (a, b) => a ++ rep ++ b
  | none => s

def restoreOnceGo : List (List Char) → Nat → List Char → List Char
  | [], _, t => t
  | b :: bs, k, t => restoreOnceGo bs (k + 1) (replaceFirst (ph k) b t)

/-- The restore function the spec describes (single occurrence per
index). -/
def restoreCodeBlocksSpecSingle (translatedContent : List Char)
    (codeBlocks : List (List Char)) : List Char :=
  restoreOnceGo codeBlocks 0 translatedContent

/-- C2 counterexample: the code's `split(placeholder).join(code)`
replaces EVERY occurrence of `[CODE_BLOCK_0]` (here both, yielding
`XAX`), not exactly one — it disagrees with the spec's single-occurrence
semantics on this input — and a later index DOES rewrite text inside an
already-substituted region: restoring block 0 = `(a[CODE_BLOCK_1]b)`
then block 1 = `Y` turns the token inside the restored block 0 into `Y`
(`pre(aYb)midYpost`). -/
theorem c2_counterexample :
    restoreCodeBlocks ("[CODE_BLOCK_0]A[CODE_BLOCK_0]".toList) ["X".toList] =
      "XAX".toList ∧
    restoreCodeBlocks ("[CODE_BLOCK_0]A[CODE_BLOCK_0]".toList) ["X".toList] ≠
      restoreCodeBlocksSpecSingle ("[CODE_BLOCK_0]A[CODE_BLOCK_0]".toList)
        ["X".toList] ∧
    restoreCodeBlocks ("pre[CODE_BLOCK_0]mid[CODE_BLOCK_1]post".toList)
        ["(a[CODE_BLOCK_1]b)".toList, "Y".toList] =
      "pre(aYb)midYpost".toList := by
  refine ⟨by decide, by decide, by decide⟩

/-- C2 (amended): `restoreCodeBlocks` substitutes placeholders in index
order with replace-ALL-occurrences semantics per index over the running
result, so a placeholder-looking token inside a restored block is itself
rewritten by a later index; when the translated text is the interleaving
of the placeholders `[CODE_BLOCK_0], [CODE_BLOCK_1], …` in index order
(each exactly once) and the fully restored text — the same interleaving
with the blocks in place of the placeholders — nowhere contains the
marker `[CODE_BLOCK_` (segment/block boundaries included, so tokens
straddling a boundary are also excluded), each substitution replaces
exactly that one occurrence and never rewrites an already-substituted
region, producing exactly that restored interleaving. -/
theorem c2_restore_segmented (ts bs : List (List Char))
    (hlen : ts.length = bs.length + 1)
    (hfree : ¬ mark <:+: interleave ts bs) :
    restoreCodeBlocks (interleave ts (phList 0 bs.length)) bs = interleave ts bs :=
  restGo_interleave bs ts 0 hlen hfree

theorem c2_witness :
    restoreCodeBlocks
        (interleave ["a".toList, "b".toList] (phList 0 1)) ["X".toList] =
      interleave ["a".toList, "b".toList] ["X".toList] :=
  c2_restore_segmented ["a".toList, "b".toList] ["X".toList] (by decide) (by decide)

/-- C7 counterexample: the round trip is NOT the identity for every body
— a body whose prose already contains a placeholder-looking token is not
reproduced: extracting `[CODE_BLOCK_0]x‹fence›c‹fence›` gives
placeholder text `[CODE_BLOCK_0]x[CODE_BLOCK_0]` and restoring replaces
*both* tokens with the block. -/
theorem c7_counterexample :
    restoreCodeBlocks
        (extractCodeBlocks ("[CODE_BLOCK_0]x```c```".toList)).contentWithPlaceholders
        (extractCodeBlocks ("[CODE_BLOCK_0]x```c```".toList)).codeBlocks ≠
      "[CODE_BLOCK_0]x```c```".toList := by
  decide

/-- C7 (amended): for every body that does not contain the substring
`[CODE_BLOCK_` — in particular for any number of fenced blocks, and for
blocks containing triple-backtick-like text inside strings —
`restoreCodeBlocks` applied to the unmodified output of
`extractCodeBlocks` reproduces the original body exactly. -/
theorem c7_roundtrip (body : List Char) (hfree : ¬ mark <:+: body) :
    restoreCodeBlocks (extractCodeBlocks body).contentWithPlaceholders
      (extractCodeBlocks body).codeBlocks = body :=
  restore_extract_roundtrip hfree

theorem c7_witness :
    (restoreCodeBlocks (extractCodeBlocks ("no fences at all".toList)).contentWithPlaceholders
      (extractCodeBlocks ("no fences at all".toList)).codeBlocks = "no fences at all".toList) ∧
    (restoreCodeBlocks (extractCodeBlocks ("pre```code```post".toList)).contentWithPlaceholders
      (extractCodeBlocks ("pre```code```post".toList)).codeBlocks = "pre```code```post".toList) ∧
    (restoreCodeBlocks
      (extractCodeBlocks ("t0```a = \"```\" b```t1```y```t2".toList)).contentWithPlaceholders
      (extractCodeBlocks ("t0```a = \"```\" b```t1```y```t2".toList)).codeBlocks =
        "t0```a = \"```\" b```t1```y```t2".toList) :=
  ⟨c7_roundtrip _ (by decide), c7_roundtrip _ (by decide), c7_roundtrip _ (by decide)⟩

/-- The full outcome of the filter on the cache-hit path (index.js lines
91-106): title and content replaced from the record, no fetch, no save,
one title pair pushed, and the in-memory record backfilled with
`originalTitle` when it was absent. -/
theorem beforePostRender_hit (md5 : List Char → List Char) (config : HexoConfig)
    (apiKey : List Char) (cache : List (List Char × CacheRecord))
    (attempt : Nat → Except Unit (Option (List Char))) (data : PostData)
    (cached : CacheRecord)
    (hguard : ¬ (data.content = [] ∨ config.enable = false ∨ apiKey = [] ∨
      data.layout ≠ "post".toList ∨ data.no_translate = true))
    (hlook : lookupSrc cache data.source = some cached)
    (hhash : cached.hash = contentHash md5 data.content data.title)
    (hmodel : cached.model = config.model.getD defaultModel) :
    beforePostRender md5 config apiKey cache attempt data =
      ⟨{ data with title := cached.translatedTitle,
                   content := cached.wrappedContent },
        0, [], [(data.title, cached.translatedTitle)],
        upsertSrc cache data.source
          (if cached.originalTitle = none then
            { cached with originalTitle := some data.title } else cached)⟩ := by
  unfold beforePostRender
  rw [if_neg hguard]
  simp only [hlook]
  rw [if_pos ⟨hhash, hmodel⟩]

/-- C4: for every content item whose stored cache record has `hash`
equal to the item's computed fingerprint and `model` equal to the
configured model, the `before_post_render` filter returns the item with
`title` replaced by the record's `translatedTitle` and `content`
replaced by the record's `wrappedContent`, and performs zero transport
(fetch) invocations. -/
theorem c4_cache_hit (md5 : List Char → List Char) (config : HexoConfig)
    (apiKey : List Char) (cache : List (List Char × CacheRecord))
    (attempt : Nat → Except Unit (Option (List Char))) (data : PostData)
    (cached : CacheRecord)
    (hguard : ¬ (data.content = [] ∨ config.enable = false ∨ apiKey = [] ∨
      data.layout ≠ "post".toList ∨ data.no_translate = true))
    (hlook : lookupSrc cache data.source = some cached)
    (hhash : cached.hash = contentHash md5 data.content data.title)
    (hmodel : cached.model = config.model.getD defaultModel) :
    (beforePostRender md5 config apiKey cache attempt data).data =
      { data with title := cached.translatedTitle,
                  content := cached.wrappedContent } ∧
    (beforePostRender md5 config apiKey cache attempt data).fetchAttempts = 0 := by
  rw [beforePostRender_hit md5 config apiKey cache attempt data cached
    hguard hlook hhash hmodel]
  exact ⟨rfl, rfl⟩

theorem c4_witness :
    (beforePostRender id ⟨true, none, none, none, none⟩ ("k".toList)
        [("a.md".toList,
          ⟨contentHash id ("body".toList) ("t".toList), defaultModel,
            some ("t".toList), "T-en".toList, "WRAPPED".toList⟩)]
        (fun _ => Except.error ())
        ⟨"a.md".toList, "t".toList, "body".toList, "post".toList, false⟩).data =
      { source := "a.md".toList, title := "T-en".toList,
        content := "WRAPPED".toList, layout := "post".toList,
        no_translate := false } ∧
    (beforePostRender id ⟨true, none, none, none, none⟩ ("k".toList)
        [("a.md".toList,
          ⟨contentHash id ("body".toList) ("t".toList), defaultModel,
            some ("t".toList), "T-en".toList, "WRAPPED".toList⟩)]
        (fun _ => Except.error ())
        ⟨"a.md".toList, "t".toList, "body".toList, "post".toList, false⟩).fetchAttempts = 0 :=
  c4_cache_hit id ⟨true, none, none, none, none⟩ ("k".toList)
    [("a.md".toList,
      ⟨contentHash id ("body".toList) ("t".toList), defaultModel,
        some ("t".toList), "T-en".toList, "WRAPPED".toList⟩)]
    (fun _ => Except.error ())
    ⟨"a.md".toList, "t".toList, "body".toList, "post".toList, false⟩
    ⟨contentHash id ("body".toList) ("t".toList), defaultModel,
      some ("t".toList), "T-en".toList, "WRAPPED".toList⟩
    (by decide) (by simp [lookupSrc]) rfl rfl

/-- C5: when the first transport attempt succeeds but the response body
lacks the `[CONTENT_START]…[CONTENT_END]` segment (or that segment is
empty), the filter returns the item completely unchanged, writes no
cache record, pushes no title pair, and performs no retry — exactly one
fetch attempt happened. -/
theorem c5_parse_failure_passthrough (md5 : List Char → List Char)
    (config : HexoConfig) (apiKey : List Char)
    (cache : List (List Char × CacheRecord))
    (attempt : Nat → Except Unit (Option (List Char))) (data : PostData)
    (raw : List Char)
    (hguard : ¬ (data.content = [] ∨ config.enable = false ∨ apiKey = [] ∨
      data.layout ≠ "post".toList ∨ data.no_translate = true))
    (hmiss : lookupSrc cache data.source = none)
    (hattempt : attempt 0 = Except.ok (some raw))
    (hseg : findMarked raw contentStartTok contentEndTok = none ∨
      findMarked raw contentStartTok contentEndTok = some []) :
    beforePostRender md5 config apiKey cache attempt data =
      ⟨data, 1, [], [], cache⟩ := by
  unfold beforePostRender
  rw [if_neg hguard]
  simp only [hmiss]
  unfold translateStep
  have hfetch : fetchWithRetry attempt 2 = (Except.ok (some raw), 1) := by
    simp [fetchWithRetry, fwrGo, hattempt]
  rw [hfetch]
  have hgetd : (findMarked raw contentStartTok contentEndTok).getD [] = [] := by
    rcases hseg with hseg | hseg <;> rw [hseg] <;> rfl
  simp only [hgetd]
  simp

theorem c5_witness :
    beforePostRender id ⟨true, none, none, none, none⟩ ("k".toList) []
        (fun _ => Except.ok (some ("Sorry, no delimiters here".toList)))
        ⟨"a.md".toList, "t".toList, "body".toList, "post".toList, false⟩ =
      ⟨⟨"a.md".toList, "t".toList, "body".toList, "post".toList, false⟩,
        1, [], [], []⟩ :=
  c5_parse_failure_passthrough id ⟨true, none, none, none, none⟩ ("k".toList) []
    (fun _ => Except.ok (some ("Sorry, no delimiters here".toList)))
    ⟨"a.md".toList, "t".toList, "body".toList, "post".toList, false⟩
    ("Sorry, no delimiters here".toList)
    (by decide) rfl rfl (Or.inl (by decide))

/-- C8: the fingerprint is not injective across the body/title boundary:
the distinct items (body `ab`, title `c`) and (body `a`, title `bc`)
hash identically for EVERY digest function `md5`, because the digest is
taken over the unseparated concatenation `body ++ title ++ "v1"`; a
record stored for the first item is therefore treated as a cache hit for
the second (title substituted from the record, zero fetches). -/
theorem c8_hash_collision (md5 : List Char → List Char) :
    ("ab".toList, "c".toList) ≠ ("a".toList, "bc".toList) ∧
    contentHash md5 ("ab".toList) ("c".toList) =
      contentHash md5 ("a".toList) ("bc".toList) ∧
    (beforePostRender md5 ⟨true, none, none, none, none⟩ ("k".toList)
        [("p.md".toList,
          ⟨contentHash md5 ("ab".toList) ("c".toList), defaultModel,
            some ("c".toList), "T-en".toList, "W".toList⟩)]
        (fun _ => Except.error ())
        ⟨"p.md".toList, "bc".toList, "a".toList, "post".toList, false⟩).data.title =
      "T-en".toList ∧
    (beforePostRender md5 ⟨true, none, none, none, none⟩ ("k".toList)
        [("p.md".toList,
          ⟨contentHash md5 ("ab".toList) ("c".toList), defaultModel,
            some ("c".toList), "T-en".toList, "W".toList⟩)]
        (fun _ => Except.error ())
        ⟨"p.md".toList, "bc".toList, "a".toList, "post".toList, false⟩).fetchAttempts = 0 := by
  have hcoll : contentHash md5 ("ab".toList) ("c".toList) =
      contentHash md5 ("a".toList) ("bc".toList) := by
    unfold contentHash
    exact congrArg md5 (by decide)
  refine ⟨by decide, hcoll, ?_⟩
  have h := beforePostRender_hit md5 ⟨true, none, none, none, none⟩ ("k".toList)
    [("p.md".toList,
      ⟨contentHash md5 ("ab".toList) ("c".toList), defaultModel,
        some ("c".toList), "T-en".toList, "W".toList⟩)]
    (fun _ => Except.error ())
    ⟨"p.md".toList, "bc".toList, "a".toList, "post".toList, false⟩
    ⟨contentHash md5 ("ab".toList) ("c".toList), defaultModel,
      some ("c".toList), "T-en".toList, "W".toList⟩
    (by decide) (by simp [lookupSrc]) hcoll rfl
  rw [h]
  exact ⟨rfl, rfl⟩

theorem c8_witness :
    ("ab".toList, "c".toList) ≠ ("a".toList, "bc".toList) ∧
    contentHash id ("ab".toList) ("c".toList) =
      contentHash id ("a".toList) ("bc".toList) ∧
    (beforePostRender id ⟨true, none, none, none, none⟩ ("k".toList)
        [("p.md".toList,
          ⟨contentHash id ("ab".toList) ("c".toList), defaultModel,
            some ("c".toList), "T-en".toList, "W".toList⟩)]
        (fun _ => Except.error ())
        ⟨"p.md".toList, "bc".toList, "a".toList, "post".toList, false⟩).data.title =
      "T-en".toList ∧
    (beforePostRender id ⟨true, none, none, none, none⟩ ("k".toList)
        [("p.md".toList,
          ⟨contentHash id ("ab".toList) ("c".toList), defaultModel,
            some ("c".toList), "T-en".toList, "W".toList⟩)]
        (fun _ => Except.error ())
        ⟨"p.md".toList, "bc".toList, "a".toList, "post".toList, false⟩).fetchAttempts = 0 :=
  c8_hash_collision id

/-- C9: a backend response with a non-empty
`[CONTENT_START]…[CONTENT_END]` segment but no
`[TITLE_START]…[TITLE_END]` markers does not fail the attempt:
`translateContent` succeeds (provided the restored content passes the
structural validation, which does not involve the title) and returns the
original untranslated input title as `translatedTitle`. -/
theorem c9_title_fallback (raw title content seg : List Char)
    (htitle : findMarked raw titleStartTok titleEndTok = none)
    (hseg : findMarked raw contentStartTok contentEndTok = some seg)
    (hne : seg ≠ [])
    (hval : validateTranslatedContent
      (restoreCodeBlocks seg (extractCodeBlocks content).codeBlocks) = Except.ok ()) :
    translateContent (some raw) title content =
      Except.ok (some (title,
        sanitizeHexoTags (restoreCodeBlocks seg (extractCodeBlocks content).codeBlocks))) := by
  have hpt : pickTitle raw title = title := by
    unfold pickTitle
    rw [htitle]
  simp only [translateContent]
  rw [hseg]
  simp only [Option.getD_some]
  rw [if_neg hne, hval, hpt]

theorem c9_witness :
    translateContent (some ("[CONTENT_START]Hello world[CONTENT_END]".toList))
        ("orig title".toList) ("body text".toList) =
      Except.ok (some ("orig title".toList,
        sanitizeHexoTags (restoreCodeBlocks ("Hello world".toList)
          (extractCodeBlocks ("body text".toList)).codeBlocks))) :=
  c9_title_fallback ("[CONTENT_START]Hello world[CONTENT_END]".toList)
    ("orig title".toList) ("body text".toList) ("Hello world".toList)
    (by decide) (by decide) (by decide) rfl

/-- A decided-bad lookahead stays bad under any continuation appended on
the right. -/
theorem decidedBadT_append {t : List Char} (v : List Char)
    (h : decidedBadT t = true) : decidedBadT (t ++ v) = true := by
  unfold decidedBadT at h ⊢
  cases hdw : t.dropWhile isSpaceCh with
  | nil => rw [hdw] at h; simp [decidedBadCore] at h
  | cons c rest =>
    rw [hdw] at h
    have hne : t.dropWhile isSpaceCh ≠ [] := by rw [hdw]; simp
    have hdwapp : (t ++ v).dropWhile isSpaceCh = c :: (rest ++ v) := by
      rw [List.dropWhile_append]
      simp [hne, hdw]
    rw [hdwapp]
    simp only [decidedBadCore] at h ⊢
    by_cases hc : c = '/'
    · rw [if_pos hc] at h ⊢
      cases rest with
      | nil => simp at h
      | cons d rest' => simpa using h
    · rw [if_neg hc] at h ⊢
      exact h

/-- Every block of an interleaving is an infix of it. -/
theorem mem_blocks_isInfix :
    ∀ (xs ts : List (List Char)), ts.length = xs.length + 1 →
      ∀ x ∈ xs, x <:+: interleave ts xs := by
  intro xs
  induction xs with
  | nil => intro ts _ x hx; simp at hx
  | cons x₀ xs' ih =>
    intro ts hlen x hx
    obtain ⟨t₀, ts', rfl⟩ : ∃ t₀ ts', ts = t₀ :: ts' := by
      cases ts with
      | nil => simp at hlen
      | cons a as => exact ⟨a, as, rfl⟩
    simp only [interleave]
    rcases List.mem_cons.mp hx with rfl | hx'
    · exact ⟨t₀, interleave ts' xs', by simp [List.append_assoc]⟩
    · have := ih ts' (by simpa using hlen) x hx'
      rw [List.append_assoc]
      exact infix_of_append_left t₀ (infix_of_append_left x₀ this)

/-- C10: because `sanitizeHexoTags` runs after code-block restoration,
a body whose fenced block contains an opener `\x7b%` whose lookahead is
(context-independently) malformed comes back — through a transport that
echoes the placeholder text — with `&#123;%` in it: the output equals
`sanitizeHexoTags body`, contains the escape entity, and is not
byte-identical to the original body, so the restored code block is
corrupted. -/
theorem c10_sanitize_in_block (body title raw : List Char)
    (hfree : ¬ mark <:+: body)
    (hseg : findMarked raw contentStartTok contentEndTok =
      some ((extractCodeBlocks body).contentWithPlaceholders))
    (hne : (extractCodeBlocks body).contentWithPlaceholders ≠ [])
    (i : Nat) (hi : i < (extractCodeBlocks body).codeBlocks.length)
    (a t : List Char)
    (hblock : (extractCodeBlocks body).codeBlocks.get ⟨i, hi⟩ = a ++ tagOpen ++ t)
    (hbad : decidedBadT t = true)
    (hval : validateTranslatedContent body = Except.ok ()) :
    translateContent (some raw) title body =
      Except.ok (some (pickTitle raw title, sanitizeHexoTags body)) ∧
    entity <:+: sanitizeHexoTags body ∧
    sanitizeHexoTags body ≠ body := by
  have hrt : restoreCodeBlocks (extractCodeBlocks body).contentWithPlaceholders
      (extractCodeBlocks body).codeBlocks = body := restore_extract_roundtrip hfree
  -- the bad opener sits inside the body
  have hmem : (extractCodeBlocks body).codeBlocks.get ⟨i, hi⟩ ∈
      (extractCodeBlocks body).codeBlocks := List.get_mem _ _ hi
  obtain ⟨ts, hlen, _, hsrc⟩ := extGo_structure body.length 0 body (le_refl _)
  have hinf0 : (extractCodeBlocks body).codeBlocks.get ⟨i, hi⟩ <:+:
      interleave ts (extGo body.length 0 body).2 :=
    mem_blocks_isInfix (extGo body.length 0 body).2 ts hlen _ hmem
  rw [← hsrc] at hinf0
  have hinf := hinf0
  rw [hblock] at hinf
  obtain ⟨u, v, huv⟩ := hinf
  have hbody : body = (u ++ a) ++ tagOpen ++ (t ++ v) := by
    rw [← huv]
    simp [List.append_assoc]
  have hsan := sanGo_bad_occurrence body.length (u ++ a) (t ++ v)
    (by rw [← hbody]) (decidedBadT_append v hbad)
  rw [← hbody] at hsan
  refine ⟨?_, hsan.1, ?_⟩
  · simp only [translateContent]
    rw [hseg]
    simp only [Option.getD_some]
    rw [if_neg hne, hrt, hval]
  · intro hcontra
    have := hsan.2
    rw [show sanGo body.length body = sanitizeHexoTags body from rfl, hcontra] at this
    omega

theorem c10_witness :
    (translateContent
        (some (contentStartTok ++
          (extractCodeBlocks ("x```a\x7b%\x7db```y".toList)).contentWithPlaceholders ++
          contentEndTok))
        ("t".toList) ("x```a\x7b%\x7db```y".toList) =
      Except.ok (some (pickTitle (contentStartTok ++
          (extractCodeBlocks ("x```a\x7b%\x7db```y".toList)).contentWithPlaceholders ++
          contentEndTok) ("t".toList),
        sanitizeHexoTags ("x```a\x7b%\x7db```y".toList)))) ∧
    entity <:+: sanitizeHexoTags ("x```a\x7b%\x7db```y".toList) ∧
    sanitizeHexoTags ("x```a\x7b%\x7db```y".toList) ≠ "x```a\x7b%\x7db```y".toList :=
  c10_sanitize_in_block ("x```a\x7b%\x7db```y".toList) ("t".toList)
    (contentStartTok ++
      (extractCodeBlocks ("x```a\x7b%\x7db```y".toList)).contentWithPlaceholders ++
      contentEndTok)
    (by decide) (by decide) (by decide) 0 (by decide)
    ("```a".toList) ("\x7db```".toList) (by decide) (by decide) rfl

end HexoLLM
